import Mathlib

/-!
Verification of the controller-orchestration and metadata-query subsystem of
the Datadog cluster agent.

Part 1 — Orchestrator (`pkg/util/kubernetes/apiserver/controllers.go`).

`StartControllers` iterates the controller catalog: for each entry it evaluates
the enablement predicate; if true it invokes the start routine (an error is only
logged); after the whole loop it starts the shared informer factory
(`ctx.InformerFactory.Start`) and returns `nil`.

The embedding records the run as a trace of observable actions, so temporal
claims (ordering of predicate evaluation, controller start, and event dispatch)
become statements about the trace.
-/

namespace DatadogAgent

/-- One entry of `controllerCatalog`: the Go struct `controllerFuncs` keyed by
its map key.  `enabled` is the value of `enabledPredicate()` at orchestration
time; `startErr` is the outcome of `startFn(ctx)` (`none` = success,
`some msg` = the error that `startFn` returned). -/
structure ControllerFuncs where
  name : String
  enabled : Bool
  startErr : Option String
  deriving DecidableEq, Repr

/-- Observable actions of a `StartControllers` run: evaluating an entry's
enablement predicate (with its result), invoking an entry's start routine
(with its outcome), and starting event dispatch
(`ctx.InformerFactory.Start(ctx.StopCh)`). -/
inductive OrchAction where
  | evalPred (name : String) (result : Bool)
  | startCtrl (name : String) (err : Option String)
  | dispatch
  deriving DecidableEq, Repr

/-- The for-loop of `StartControllers` (controllers.go lines 60-69): evaluate
`enabled()`; if false, skip (log only); if true, call `start(ctx)` and log any
error without aborting the loop. -/
def processCatalog : List ControllerFuncs → List OrchAction
  | [] => []
  | e :: rest =>
    if e.enabled then
      OrchAction.evalPred e.name true :: OrchAction.startCtrl e.name e.startErr ::
        processCatalog rest
    else
      OrchAction.evalPred e.name false :: processCatalog rest

/-- `StartControllers` (controllers.go lines 59-81): run the catalog loop, then
start the informer factory (event dispatch), then `return nil`.  The result is
the action trace of the run together with the returned error value. -/
def StartControllers (catalog : List ControllerFuncs) :
    List OrchAction × Option String :=
  (processCatalog catalog ++ [OrchAction.dispatch], none)

/-- Predicate-evaluation events for the named entry. -/
def isEvalOf (n : String) : OrchAction → Bool
  | OrchAction.evalPred m _ => m == n
  | _ => false

/-!
Part 2 — QueryAPI (`cmd/cluster-agent/api/v1/install.go`).

Each handler is a pure translation from the results of its collaborators
(aggregator query, JSON marshalling) to an HTTP outcome.  Marshalling is kept
as an explicit parameter so that the handlers' error branches stay visible;
`goMarshal…` below are the concrete models of `encoding/json` on the payload
types actually marshalled, which never fail and never produce empty bytes.
-/

/-- Outcome of one handler invocation: the status line actually sent (Go's
`WriteHeader` honors only the first call per request), the body written, and
the `apiRequests.Inc(handler, status)` calls made, in order. -/
structure HttpResponse where
  status : Nat
  body : String
  increments : List (String × Nat)
  deriving DecidableEq, Repr

/-- First-match association-list lookup. -/
def getAssoc {α β : Type} [DecidableEq α] : List (α × β) → α → Option β
  | [], _ => none
  | (k, v) :: rest, a => if k = a then some v else getAssoc rest a

/-- A pod→tags map, the payload of `GetMetadataMapBundleOnNode`. -/
abbrev PodTagMap := List (String × List String)

/-- The payload of `GetMetadataMapBundleOnAllNodes`: per-node pod maps plus
the per-node error markers collected along the way. -/
structure MetadataResponse where
  nodes : List (String × PodTagMap)
  errors : List String
  deriving DecidableEq, Repr

def jsonString (s : String) : String := "\"" ++ s ++ "\""

def encodeStringList (ls : List String) : String :=
  "[" ++ String.intercalate "," (ls.map jsonString) ++ "]"

def encodePodTagMap (m : PodTagMap) : String :=
  "\x7b" ++ String.intercalate ","
    (m.map fun p => jsonString p.1 ++ ":" ++ encodeStringList p.2) ++ "\x7d"

def encodeMetadataResponse (r : MetadataResponse) : String :=
  "\x7b" ++ String.intercalate ","
      (r.nodes.map fun p => jsonString p.1 ++ ":" ++ encodePodTagMap p.2) ++
    ",\"Errors\":" ++ encodeStringList r.errors ++ "\x7d"

/-- Model of `json.Marshal` on a label list: it cannot fail on this type and
its output is never empty. -/
def goMarshalLabels (ls : List String) : Except String String :=
  Except.ok (encodeStringList ls)

/-- Model of `json.Marshal` on a pod→tags map. -/
def goMarshalPodTagMap (m : PodTagMap) : Except String String :=
  Except.ok (encodePodTagMap m)

/-- Model of `json.Marshal` on the all-nodes metadata response. -/
def goMarshalResponse (r : MetadataResponse) : Except String String :=
  Except.ok (encodeMetadataResponse r)

/-- Modelled from the spec: `GetNodeLabels`
(`pkg/util/kubernetes/apiserver`, not under src/).  Per the spec, `byNode(node)`
returns the node's labels or not-found; in the Go signature `(labels, error)`
the absent node is reported through the error value, whose text — per the
handler's own documentation (install.go line 94) — is
"no cached metadata found for the node <node>". -/
def GetNodeLabels (nodeTags : List (String × List String)) (nodeName : String) :
    Except String (List String) :=
  match getAssoc nodeTags nodeName with
  | some ls => Except.ok ls
  | none => Except.error ("no cached metadata found for the node " ++ nodeName)

/-- `getNodeMetadata` (install.go lines 79-135): collaborator error → 500 with
the error text; marshal error → 500; nonempty marshalled bytes → 200 with the
payload; empty bytes → 404 with a message naming the node.  Every branch makes
exactly one `apiRequests` increment, keyed `getNodeMetadata` with the branch's
status. -/
def getNodeMetadata (nodeName : String) (labelsRes : Except String (List String))
    (marshal : List String → Except String String) : HttpResponse :=
  match labelsRes with
  | Except.error e => ⟨500, e, [("getNodeMetadata", 500)]⟩
  | Except.ok nodeLabels =>
    match marshal nodeLabels with
    | Except.error e => ⟨500, e, [("getNodeMetadata", 500)]⟩
    | Except.ok labelBytes =>
      if 0 < labelBytes.length then
        ⟨200, labelBytes, [("getNodeMetadata", 200)]⟩
      else
        ⟨404, "Could not find labels on the node: " ++ nodeName,
          [("getNodeMetadata", 404)]⟩

/-- `getPodMetadataForNode` (install.go lines 201-234): the aggregator warning
`errNodes` is only logged; marshal error → 500; nonempty bytes → 200 with the
(possibly empty) pod→tags map; empty bytes → 404 — a branch whose increment is
keyed `getPodMetadata`, as in the source. -/
def getPodMetadataForNode (metaList : PodTagMap) (errNodes : Option String)
    (marshal : PodTagMap → Except String String) : HttpResponse :=
  match marshal metaList with
  | Except.error e => ⟨500, e, [("getPodMetadataForNode", 500)]⟩
  | Except.ok slcB =>
    if slcB.length ≠ 0 then
      ⟨200, slcB, [("getPodMetadataForNode", 200)]⟩
    else
      ⟨404, "", [("getPodMetadata", 404)]⟩

/-- `getAllMetadata` (install.go lines 237-296): client error → 500; otherwise
the status is written up front — 503 when the aggregate had an error, 200
otherwise — and later `http.Error`/`WriteHeader` calls cannot change it
(`WriteHeader` is honored once per request); the marshalled bundle is then
written as the body when nonempty.  The increments are those the source makes:
`200` in the nonempty branch and `404` in the empty branch regardless of the
status actually sent. -/
def getAllMetadata (clientRes : Except String Unit) (metaList : MetadataResponse)
    (errAPIServer : Option String)
    (marshal : MetadataResponse → Except String String) : HttpResponse :=
  match clientRes with
  | Except.error e => ⟨500, e, [("getAllMetadata", 500)]⟩
  | Except.ok _ =>
    let st := if errAPIServer.isSome then 503 else 200
    match marshal metaList with
    | Except.error e => ⟨st, e, [("getAllMetadata", 500)]⟩
    | Except.ok metaListBytes =>
      if metaListBytes.length ≠ 0 then
        ⟨st, metaListBytes, [("getAllMetadata", 200)]⟩
      else
        ⟨st, "", [("getAllMetadata", 404)]⟩

/-- A per-node error marker for the all-nodes aggregate. -/
def perNodeError (n e : String) : String := "Node " ++ n ++ ": " ++ e

/-- Modelled from the spec: the per-node collection loop of
`GetMetadataMapBundleOnAllNodes` (not under src/) — each node's pod map is
computed independently; a success is recorded under the node's name and a
failure is captured as a per-node error marker without aborting the others. -/
def collectNodes : List (String × Except String PodTagMap) → MetadataResponse
  | [] => ⟨[], []⟩
  | (n, Except.ok m) :: rest =>
    let r := collectNodes rest
    ⟨(n, m) :: r.nodes, r.errors⟩
  | (n, Except.error e) :: rest =>
    let r := collectNodes rest
    ⟨r.nodes, perNodeError n e :: r.errors⟩

/-- Whether some node's computation failed. -/
def hasFailure (perNode : List (String × Except String PodTagMap)) : Bool :=
  perNode.any fun p => match p.2 with
    | Except.error _ => true
    | Except.ok _ => false

/-- Modelled from the spec: `GetMetadataMapBundleOnAllNodes` (not under src/)
iterates all known nodes, computing each node's pod map independently; a
per-node failure is captured as a `PerNodeError` and does not abort computation
for other nodes — the result is the partial data plus an aggregate error
flag. -/
def GetMetadataMapBundleOnAllNodes
    (perNode : List (String × Except String PodTagMap)) :
    MetadataResponse × Option String :=
  (collectNodes perNode,
    if (collectNodes perNode).errors.isEmpty then none
    else some "could not collect the service map for all nodes")

/-!
Part 3 — MetadataAggregator event application.  Modelled from the spec: the
aggregator (the metadata controller's Node/Endpoint event handlers) is not
under src/.  Per the spec: a Node add/update recomputes the node's label set
from the event's resource snapshot and atomically replaces the node's entry in
the node-tag bundle; an Endpoint add/update derives the service's
(namespace, pod) backends and, for each, adds the tag
`"kube_service:<serviceName>"` under the pod's owning node's entry in the
pod-tag bundle — tags are a set, so re-adding the same value is idempotent.
-/

/-- Replace (or insert) the whole entry for a key — the atomic per-node
replacement of the spec. -/
def setAssoc {α β : Type} [DecidableEq α] : List (α × β) → α → β → List (α × β)
  | [], k, v => [(k, v)]
  | (k', v') :: rest, k, v =>
    if k' = k then (k, v) :: rest else (k', v') :: setAssoc rest k v

/-- Modify the entry for a key, creating it from the default when absent. -/
def modifyAssoc {α β : Type} [DecidableEq α] (d : β) (f : β → β) :
    List (α × β) → α → List (α × β)
  | [], k => [(k, f d)]
  | (k', v') :: rest, k =>
    if k' = k then (k, f v') :: rest else (k', v') :: modifyAssoc d f rest k

/-- Add a tag to a tag set (sets as duplicate-free lists): re-adding an
existing value leaves the set unchanged. -/
def insertTag (tags : List String) (t : String) : List String :=
  if t ∈ tags then tags else tags ++ [t]

/-- nodeName → label set. -/
abbrev NodeTagBundle := List (String × List String)

/-- A (namespace, podName) key. -/
abbrev PodKey := String × String

/-- nodeName → (namespace, podName) → service-derived tag set. -/
abbrev PodTagBundle := List (String × List (PodKey × List String))

/-- One (namespace, pod) backend of a service, with the pod's owning node. -/
structure Backend where
  node : String
  ns : String
  pod : String
  deriving DecidableEq, Repr

/-- The Add events the aggregator consumes: a Node add carrying the node's
label set as recomputed from the event's resource snapshot, and an Endpoint
add carrying the service name and its derived backends. -/
inductive AggEvent where
  | nodeAdd (name : String) (labels : List String)
  | endpointAdd (svc : String) (backends : List Backend)
  deriving DecidableEq, Repr

/-- The aggregator's state: both bundles. -/
structure Bundles where
  nodeTags : NodeTagBundle
  podTags : PodTagBundle
  deriving DecidableEq, Repr

def kubeServiceTag (svc : String) : String := "kube_service:" ++ svc

/-- Add one backend's service tag under the pod's owning node's entry. -/
def addBackendTag (pt : PodTagBundle) (b : Backend) (tag : String) :
    PodTagBundle :=
  modifyAssoc []
    (fun podMap =>
      modifyAssoc [] (fun tags => insertTag tags tag) podMap (b.ns, b.pod))
    pt b.node

/-- Apply one Add event to the aggregator's bundles. -/
def applyEvent (s : Bundles) : AggEvent → Bundles
  | AggEvent.nodeAdd name labels =>
    { s with nodeTags := setAssoc s.nodeTags name labels }
  | AggEvent.endpointAdd svc backends =>
    { s with
      podTags := backends.foldl
        (fun pt b => addBackendTag pt b (kubeServiceTag svc)) s.podTags }

/-- The pod-tag bundle records the tag for the backend's pod. -/
def HasTag (pt : PodTagBundle) (b : Backend) (tag : String) : Prop :=
  ∃ podMap tags, getAssoc pt b.node = some podMap ∧
    getAssoc podMap (b.ns, b.pod) = some tags ∧ tag ∈ tags

theorem dispatch_not_mem_processCatalog (catalog : List ControllerFuncs) :
    OrchAction.dispatch ∉ processCatalog catalog := by
  induction catalog with
  | nil => simp [processCatalog]
  | cons e rest ih =>
    by_cases he : e.enabled <;> simp [processCatalog, he, ih]

theorem startCtrl_mem_processCatalog {catalog : List ControllerFuncs}
    {e : ControllerFuncs} (he : e ∈ catalog) (hen : e.enabled = true) :
    OrchAction.startCtrl e.name e.startErr ∈ processCatalog catalog := by
  induction catalog with
  | nil => cases he
  | cons c rest ih =>
    rcases List.mem_cons.mp he with he | he
    · subst he; simp [processCatalog, hen]
    · by_cases hc : c.enabled <;> simp [processCatalog, hc, ih he]

theorem evalPred_mem_processCatalog {catalog : List ControllerFuncs}
    {e : ControllerFuncs} (he : e ∈ catalog) :
    OrchAction.evalPred e.name e.enabled ∈ processCatalog catalog := by
  induction catalog with
  | nil => cases he
  | cons c rest ih =>
    rcases List.mem_cons.mp he with he | he
    · subst he; by_cases hc : e.enabled <;> simp [processCatalog, hc]
    · by_cases hc : c.enabled <;> simp [processCatalog, hc, ih he]

theorem append_singleton_split {α : Type} [DecidableEq α] {xs l₁ l₂ : List α}
    {d : α} (hsplit : xs ++ [d] = l₁ ++ d :: l₂) (hd : d ∉ xs) :
    l₁ = xs ∧ l₂ = [] := by
  induction xs generalizing l₁ with
  | nil =>
    cases l₁ with
    | nil => simpa using hsplit
    | cons a l₁' =>
      simp only [List.nil_append, List.cons_append] at hsplit
      obtain ⟨-, habs⟩ := List.cons.injEq .. ▸ hsplit
      exact absurd habs.symm (by simp)
  | cons x xs' ih =>
    cases l₁ with
    | nil =>
      simp only [List.cons_append, List.nil_append] at hsplit
      obtain ⟨hx, -⟩ := List.cons.injEq .. ▸ hsplit
      exact absurd (hx ▸ List.mem_cons_self x xs') hd
    | cons a l₁' =>
      simp only [List.cons_append] at hsplit
      obtain ⟨hx, htail⟩ := List.cons.injEq .. ▸ hsplit
      have hd' : d ∉ xs' := fun h => hd (List.mem_cons_of_mem x h)
      obtain ⟨h₁, h₂⟩ := ih htail hd'
      exact ⟨by rw [hx, h₁], h₂⟩

/-- C1: in any run of `StartControllers`, wherever dispatch
(`ctx.InformerFactory.Start`) occurs in the trace, every enabled entry's start
routine (which registers that controller's subscriptions) has already occurred
before it: subscribe before dispatch. -/
theorem startControllers_subscribe_before_dispatch
    (catalog : List ControllerFuncs) (l₁ l₂ : List OrchAction)
    (hsplit : (StartControllers catalog).1 = l₁ ++ OrchAction.dispatch :: l₂)
    (e : ControllerFuncs) (he : e ∈ catalog) (hen : e.enabled = true) :
    OrchAction.startCtrl e.name e.startErr ∈ l₁ := by
  have h := @append_singleton_split _ _ (processCatalog catalog) l₁ l₂
    OrchAction.dispatch hsplit (dispatch_not_mem_processCatalog catalog)
  rw [h.1]
  exact startCtrl_mem_processCatalog he hen

theorem startControllers_subscribe_before_dispatch_witness :
    OrchAction.startCtrl "metadata" none ∈
      [OrchAction.evalPred "metadata" true, OrchAction.startCtrl "metadata" none] :=
  startControllers_subscribe_before_dispatch
    [⟨"metadata", true, none⟩]
    [OrchAction.evalPred "metadata" true, OrchAction.startCtrl "metadata" none]
    [] rfl ⟨"metadata", true, none⟩ (by simp) rfl

/-- C2: whatever the start outcomes recorded in the catalog — in particular
when some entry's `startFn` returned an error — every enabled entry's start
routine is still invoked during the run and dispatch still occurs: one
controller's startup failure never prevents any other controller from being
started nor the informer factory from being started. -/
theorem startControllers_failure_isolated
    (catalog : List ControllerFuncs) (e : ControllerFuncs)
    (he : e ∈ catalog) (hen : e.enabled = true) :
    OrchAction.startCtrl e.name e.startErr ∈ (StartControllers catalog).1 ∧
      OrchAction.dispatch ∈ (StartControllers catalog).1 := by
  constructor
  · exact List.mem_append_left _ (startCtrl_mem_processCatalog he hen)
  · exact List.mem_append_right _ (List.mem_singleton_self _)

theorem startControllers_failure_isolated_witness :
    OrchAction.startCtrl "metadata" none ∈
      (StartControllers [⟨"autoscalers", true, some "boom"⟩,
        ⟨"metadata", true, none⟩]).1 ∧
    OrchAction.dispatch ∈
      (StartControllers [⟨"autoscalers", true, some "boom"⟩,
        ⟨"metadata", true, none⟩]).1 :=
  startControllers_failure_isolated
    [⟨"autoscalers", true, some "boom"⟩, ⟨"metadata", true, none⟩]
    ⟨"metadata", true, none⟩ (by simp) rfl

theorem startCtrl_mem_implies_enabled {catalog : List ControllerFuncs}
    {n : String} {r : Option String}
    (h : OrchAction.startCtrl n r ∈ processCatalog catalog) :
    ∃ e ∈ catalog, e.name = n ∧ e.enabled = true := by
  induction catalog with
  | nil => cases h
  | cons c rest ih =>
    by_cases hc : c.enabled
    · rw [processCatalog, if_pos hc, List.mem_cons, List.mem_cons] at h
      rcases h with h | h | h
      · cases h
      · refine ⟨c, List.mem_cons_self c rest, ?_, hc⟩
        cases h
        rfl
      · obtain ⟨e, hmem, hrest⟩ := ih h
        exact ⟨e, List.mem_cons_of_mem c hmem, hrest⟩
    · rw [processCatalog, if_neg hc, List.mem_cons] at h
      rcases h with h | h
      · cases h
      · obtain ⟨e, hmem, hrest⟩ := ih h
        exact ⟨e, List.mem_cons_of_mem c hmem, hrest⟩

/-- C3: in a catalog with distinct entry names (as the Go map guarantees), an
entry whose enablement predicate returned false at orchestration time never has
its start routine invoked during the run. -/
theorem disabled_entry_never_started
    (catalog : List ControllerFuncs) (e : ControllerFuncs)
    (hnodup : (catalog.map ControllerFuncs.name).Nodup)
    (he : e ∈ catalog) (hen : e.enabled = false) :
    ∀ r, OrchAction.startCtrl e.name r ∉ (StartControllers catalog).1 := by
  intro r hmem
  rcases List.mem_append.mp hmem with h | h
  · obtain ⟨e', he', hname, hen'⟩ := startCtrl_mem_implies_enabled h
    have : e' = e :=
      List.inj_on_of_nodup_map hnodup he' he hname
    rw [this] at hen'
    rw [hen] at hen'
    cases hen'
  · simp at h

theorem disabled_entry_never_started_witness :
    OrchAction.startCtrl "services" none ∉
      (StartControllers [⟨"services", false, none⟩, ⟨"metadata", true, none⟩]).1 :=
  disabled_entry_never_started
    [⟨"services", false, none⟩, ⟨"metadata", true, none⟩]
    ⟨"services", false, none⟩ (by simp) (by simp) rfl none

theorem countP_evalOf_processCatalog (catalog : List ControllerFuncs)
    (n : String) :
    (processCatalog catalog).countP (isEvalOf n) =
      catalog.countP (fun e => e.name == n) := by
  induction catalog with
  | nil => rfl
  | cons c rest ih =>
    by_cases hc : c.enabled <;>
      simp [processCatalog, hc, List.countP_cons, ih, isEvalOf]

theorem countP_name_eq_zero {catalog : List ControllerFuncs} {n : String}
    (h : n ∉ catalog.map ControllerFuncs.name) :
    catalog.countP (fun e => e.name == n) = 0 := by
  induction catalog with
  | nil => rfl
  | cons c rest ih =>
    simp only [List.map_cons, List.mem_cons, not_or] at h
    rw [List.countP_cons]
    have hc : (c.name == n) = false := by
      simp only [beq_eq_false_iff_ne, ne_eq]
      exact fun hh => h.1 hh.symm
    simp [hc, ih h.2]

theorem countP_name_eq_one {catalog : List ControllerFuncs}
    {e : ControllerFuncs}
    (hnodup : (catalog.map ControllerFuncs.name).Nodup) (he : e ∈ catalog) :
    catalog.countP (fun x => x.name == e.name) = 1 := by
  induction catalog with
  | nil => cases he
  | cons c rest ih =>
    simp only [List.map_cons, List.nodup_cons] at hnodup
    rw [List.countP_cons]
    rcases List.mem_cons.mp he with he | he
    · have hc : (c.name == e.name) = true := by rw [he]; exact beq_self_eq_true _
      have hz : rest.countP (fun x => x.name == e.name) = 0 :=
        countP_name_eq_zero (by rw [he]; exact hnodup.1)
      simp [hc, hz]
    · have hc : (c.name == e.name) = false := by
        simp only [beq_eq_false_iff_ne, ne_eq]
        intro hh
        exact hnodup.1 (hh ▸ List.mem_map_of_mem ControllerFuncs.name he)
      simp [hc, ih hnodup.2 he]

/-- C9: in a catalog with distinct entry names, each entry's enablement
predicate is evaluated exactly once during the whole `StartControllers` run —
the trace contains exactly one predicate-evaluation event for that entry, and
no other action of the run evaluates it again. -/
theorem enabled_predicate_evaluated_once
    (catalog : List ControllerFuncs) (e : ControllerFuncs)
    (hnodup : (catalog.map ControllerFuncs.name).Nodup)
    (he : e ∈ catalog) :
    (StartControllers catalog).1.countP (isEvalOf e.name) = 1 := by
  unfold StartControllers
  rw [List.countP_append, countP_evalOf_processCatalog]
  have hdisp : List.countP (isEvalOf e.name) [OrchAction.dispatch] = 0 := rfl
  rw [hdisp, Nat.add_zero]
  exact countP_name_eq_one hnodup he

theorem enabled_predicate_evaluated_once_witness :
    (StartControllers [⟨"endpoints", true, none⟩,
      ⟨"autoscalers", false, none⟩]).1.countP (isEvalOf "endpoints") = 1 :=
  enabled_predicate_evaluated_once
    [⟨"endpoints", true, none⟩, ⟨"autoscalers", false, none⟩]
    ⟨"endpoints", true, none⟩ (by simp) (by simp)

/-- C10: `StartControllers` always returns `nil`: the `err` from each start
routine is only logged and the function ends with `return nil`, so no catalog —
not even one where every enabled start routine fails — makes it propagate an
error to its caller. -/
theorem startControllers_returns_nil (catalog : List ControllerFuncs) :
    (StartControllers catalog).2 = none := rfl

theorem encodeStringList_ne_empty (ls : List String) :
    (encodeStringList ls).length ≠ 0 := by
  unfold encodeStringList
  rw [String.length_append, String.length_append]
  have h1 : "[".length = 1 := rfl
  have h2 : "]".length = 1 := rfl
  omega

theorem encodePodTagMap_ne_empty (m : PodTagMap) :
    (encodePodTagMap m).length ≠ 0 := by
  unfold encodePodTagMap
  rw [String.length_append, String.length_append]
  have h1 : "\x7b".length = 1 := rfl
  have h2 : "\x7d".length = 1 := rfl
  omega

theorem encodeMetadataResponse_ne_empty (r : MetadataResponse) :
    (encodeMetadataResponse r).length ≠ 0 := by
  unfold encodeMetadataResponse
  rw [String.length_append, String.length_append, String.length_append,
    String.length_append]
  have h1 : "\x7b".length = 1 := rfl
  have h2 : "\x7d".length = 1 := rfl
  omega

/-- C4 counterexample: with the node absent from the bundle, the handler does
not return not-found — `GetNodeLabels` reports the absent node through its
error value (install.go line 94 documents exactly this text as the 500
example), so `getNodeMetadata` answers 500, treating not-found as an internal
error; and even if the collaborator instead returned an empty label list, the
marshalled bytes `[]` are nonempty, so the answer would be 200 — the 404
branch is not what an unknown node reaches. -/
theorem getNodeMetadata_unknown_counterexample :
    (getNodeMetadata "unknown" (GetNodeLabels [] "unknown") goMarshalLabels).status
        = 500 ∧
    ¬ ((getNodeMetadata "unknown" (GetNodeLabels [] "unknown")
        goMarshalLabels).status = 404) ∧
    (getNodeMetadata "unknown" (Except.ok []) goMarshalLabels).status = 200 := by
  refine ⟨rfl, by decide, rfl⟩

/-- C4 amended: querying node labels for a node absent from the bundle returns
an internal-error (500) response whose message names the queried node — the
collaborator's "no cached metadata found for the node <node>" error text passed
through by the handler — rather than a not-found status. -/
theorem getNodeMetadata_unknown_internal_error
    (nodeTags : List (String × List String)) (nodeName : String)
    (h : getAssoc nodeTags nodeName = none) :
    (getNodeMetadata nodeName (GetNodeLabels nodeTags nodeName)
        goMarshalLabels).status = 500 ∧
    (getNodeMetadata nodeName (GetNodeLabels nodeTags nodeName)
        goMarshalLabels).body =
      "no cached metadata found for the node " ++ nodeName := by
  rw [GetNodeLabels, h]
  exact ⟨rfl, rfl⟩

theorem getNodeMetadata_unknown_internal_error_witness :
    (getNodeMetadata "unknown" (GetNodeLabels [] "unknown")
        goMarshalLabels).status = 500 ∧
    (getNodeMetadata "unknown" (GetNodeLabels [] "unknown")
        goMarshalLabels).body =
      "no cached metadata found for the node " ++ "unknown" :=
  getNodeMetadata_unknown_internal_error [] "unknown" rfl

/-- C7: for every pod-map result, warning and marshaller that never yields
empty bytes on success, `getPodMetadataForNode` answers 200 with the
(possibly empty) pod→tags map when marshalling succeeds and 500 when it fails;
it never answers 404 — in particular a node with no pod data gets 200, not
not-found. -/
theorem getPodMetadataForNode_never_notfound (metaList : PodTagMap)
    (errNodes : Option String) (marshal : PodTagMap → Except String String)
    (hm : ∀ x s, marshal x = Except.ok s → s.length ≠ 0) :
    ((∃ s, marshal metaList = Except.ok s ∧
        getPodMetadataForNode metaList errNodes marshal =
          ⟨200, s, [("getPodMetadataForNode", 200)]⟩) ∨
      (∃ e, marshal metaList = Except.error e ∧
        (getPodMetadataForNode metaList errNodes marshal).status = 500)) ∧
    (getPodMetadataForNode metaList errNodes marshal).status ≠ 404 := by
  cases hmm : marshal metaList with
  | error e =>
    refine ⟨Or.inr ⟨e, rfl, ?_⟩, ?_⟩ <;> simp [getPodMetadataForNode, hmm]
  | ok s =>
    have hs := hm _ _ hmm
    refine ⟨Or.inl ⟨s, rfl, ?_⟩, ?_⟩ <;> simp [getPodMetadataForNode, hmm, hs]

theorem getPodMetadataForNode_never_notfound_witness :
    (getPodMetadataForNode [] (some "warn") goMarshalPodTagMap).status ≠ 404 ∧
    (getPodMetadataForNode [] (some "warn") goMarshalPodTagMap).status = 200 :=
  ⟨(getPodMetadataForNode_never_notfound [] (some "warn") goMarshalPodTagMap
      (fun x s h => by
        rw [goMarshalPodTagMap] at h
        cases h
        exact encodePodTagMap_ne_empty x)).2,
    rfl⟩

theorem collectNodes_ok_mem {l : List (String × Except String PodTagMap)}
    {n : String} {m : PodTagMap} (h : (n, Except.ok m) ∈ l) :
    (n, m) ∈ (collectNodes l).nodes := by
  induction l with
  | nil => cases h
  | cons p rest ih =>
    obtain ⟨pn, pr⟩ := p
    rcases List.mem_cons.mp h with h0 | h0
    · obtain ⟨h1, h2⟩ := Prod.mk.injEq .. ▸ h0
      subst h1
      rw [← h2]
      simp [collectNodes]
    · clear h
      have hrec := ih h0
      cases pr with
      | ok v =>
        simp only [collectNodes, List.mem_cons]
        exact Or.inr hrec
      | error v =>
        simpa only [collectNodes] using hrec

theorem collectNodes_error_mem {l : List (String × Except String PodTagMap)}
    {n e : String} (h : (n, Except.error e) ∈ l) :
    perNodeError n e ∈ (collectNodes l).errors := by
  induction l with
  | nil => cases h
  | cons p rest ih =>
    obtain ⟨pn, pr⟩ := p
    rcases List.mem_cons.mp h with h0 | h0
    · obtain ⟨h1, h2⟩ := Prod.mk.injEq .. ▸ h0
      subst h1
      rw [← h2]
      simp [collectNodes]
    · clear h
      have hrec := ih h0
      cases pr with
      | ok v =>
        simpa only [collectNodes] using hrec
      | error v =>
        simp only [collectNodes, List.mem_cons]
        exact Or.inr hrec

theorem collectNodes_errors_isEmpty
    (l : List (String × Except String PodTagMap)) :
    (collectNodes l).errors.isEmpty = !hasFailure l := by
  induction l with
  | nil => rfl
  | cons p rest ih =>
    obtain ⟨pn, pr⟩ := p
    cases pr <;> simp [collectNodes, hasFailure, List.any_cons] <;>
      simpa [hasFailure] using ih

/-- C6: with the spec-modelled all-nodes aggregate, `getAllMetadata` (client
reachable) answers 200 exactly when every node's computation succeeded and 503
when it is partial, and in every case — 503 included — the body is the
marshalled bundle, which carries every successful node's data and a per-node
error marker for every failed node. -/
theorem getAllMetadata_aggregate_contract
    (perNode : List (String × Except String PodTagMap)) :
    (getAllMetadata (Except.ok ()) (GetMetadataMapBundleOnAllNodes perNode).1
        (GetMetadataMapBundleOnAllNodes perNode).2 goMarshalResponse).status =
      (if hasFailure perNode then 503 else 200) ∧
    (getAllMetadata (Except.ok ()) (GetMetadataMapBundleOnAllNodes perNode).1
        (GetMetadataMapBundleOnAllNodes perNode).2 goMarshalResponse).body =
      encodeMetadataResponse (collectNodes perNode) ∧
    (∀ n m, (n, Except.ok m) ∈ perNode →
      (n, m) ∈ (collectNodes perNode).nodes) ∧
    (∀ n e, (n, Except.error e) ∈ perNode →
      perNodeError n e ∈ (collectNodes perNode).errors) := by
  have hne := encodeMetadataResponse_ne_empty (collectNodes perNode)
  have hsome : (GetMetadataMapBundleOnAllNodes perNode).2.isSome =
      hasFailure perNode := by
    rw [GetMetadataMapBundleOnAllNodes, collectNodes_errors_isEmpty]
    cases hf : hasFailure perNode <;> simp
  have h1 : (GetMetadataMapBundleOnAllNodes perNode).1 = collectNodes perNode :=
    rfl
  refine ⟨?_, ?_, fun n m h => collectNodes_ok_mem h,
    fun n e h => collectNodes_error_mem h⟩
  · simp [getAllMetadata, goMarshalResponse, h1, hne, hsome]
  · simp [getAllMetadata, goMarshalResponse, h1, hne, hsome]

theorem getAllMetadata_aggregate_contract_witness :
    (getAllMetadata (Except.ok ())
        (GetMetadataMapBundleOnAllNodes
          [("n1", Except.ok [("p1", ["kube_service:svc-a"])]),
            ("n2", Except.error "boom")]).1
        (GetMetadataMapBundleOnAllNodes
          [("n1", Except.ok [("p1", ["kube_service:svc-a"])]),
            ("n2", Except.error "boom")]).2 goMarshalResponse).status = 503 ∧
    ("n1", [("p1", ["kube_service:svc-a"])]) ∈
      (collectNodes [("n1", Except.ok [("p1", ["kube_service:svc-a"])]),
        ("n2", Except.error "boom")]).nodes ∧
    perNodeError "n2" "boom" ∈
      (collectNodes [("n1", Except.ok [("p1", ["kube_service:svc-a"])]),
        ("n2", Except.error "boom")]).errors := by
  refine ⟨?_, ?_, ?_⟩
  · have h := (getAllMetadata_aggregate_contract
      [("n1", Except.ok [("p1", ["kube_service:svc-a"])]),
        ("n2", Except.error "boom")]).1
    simpa using h
  · exact (getAllMetadata_aggregate_contract
      [("n1", Except.ok [("p1", ["kube_service:svc-a"])]),
        ("n2", Except.error "boom")]).2.2.1 "n1" _ (by simp)
  · exact (getAllMetadata_aggregate_contract
      [("n1", Except.ok [("p1", ["kube_service:svc-a"])]),
        ("n2", Except.error "boom")]).2.2.2 "n2" "boom" (by simp)

/-- C5 (code-bug evidence): on a partial aggregate with a nonempty payload,
`getAllMetadata` sends status 503 yet its single counter increment is keyed
`("getAllMetadata", 200)` — the status code in the counter is not the status
actually sent; and `getPodMetadataForNode`'s empty-payload branch increments
under the name `getPodMetadata` — not the handler's own name. -/
theorem queryapi_increment_mismatch :
    (getAllMetadata (Except.ok ())
        ⟨[("n1", [("p1", ["kube_service:svc-a"])])], [perNodeError "n2" "boom"]⟩
        (some "could not collect the service map for all nodes")
        goMarshalResponse).status = 503 ∧
    (getAllMetadata (Except.ok ())
        ⟨[("n1", [("p1", ["kube_service:svc-a"])])], [perNodeError "n2" "boom"]⟩
        (some "could not collect the service map for all nodes")
        goMarshalResponse).increments = [("getAllMetadata", 200)] ∧
    (getPodMetadataForNode [] none fun _ => Except.ok "").increments =
      [("getPodMetadata", 404)] := by
  refine ⟨rfl, rfl, rfl⟩

theorem setAssoc_idem {α β : Type} [DecidableEq α] (l : List (α × β))
    (k : α) (v : β) : setAssoc (setAssoc l k v) k v = setAssoc l k v := by
  induction l with
  | nil => simp [setAssoc]
  | cons p rest ih =>
    obtain ⟨k', v'⟩ := p
    by_cases hk : k' = k
    · simp [setAssoc, hk]
    · simp [setAssoc, hk, ih]

theorem getAssoc_modifyAssoc_self {α β : Type} [DecidableEq α] (d : β)
    (f : β → β) (l : List (α × β)) (k : α) :
    getAssoc (modifyAssoc d f l k) k = some (f ((getAssoc l k).getD d)) := by
  induction l with
  | nil => simp [modifyAssoc, getAssoc]
  | cons p rest ih =>
    obtain ⟨k', v'⟩ := p
    by_cases hk : k' = k
    · simp [modifyAssoc, getAssoc, hk]
    · simp [modifyAssoc, getAssoc, hk, ih]

theorem getAssoc_modifyAssoc_ne {α β : Type} [DecidableEq α] (d : β)
    (f : β → β) (l : List (α × β)) {k k' : α} (h : k' ≠ k) :
    getAssoc (modifyAssoc d f l k) k' = getAssoc l k' := by
  have hne : ¬ k = k' := fun hh => h hh.symm
  induction l with
  | nil => simp [modifyAssoc, getAssoc, hne]
  | cons p rest ih =>
    obtain ⟨k'', v''⟩ := p
    by_cases hk : k'' = k
    · simp [modifyAssoc, getAssoc, hk, hne]
    · by_cases hk' : k'' = k' <;> simp [modifyAssoc, getAssoc, hk, hk', ih, h]

theorem modifyAssoc_eq_self {α β : Type} [DecidableEq α] {d : β} {f : β → β}
    {l : List (α × β)} {k : α} {v : β}
    (hv : getAssoc l k = some v) (hf : f v = v) : modifyAssoc d f l k = l := by
  induction l with
  | nil => cases hv
  | cons p rest ih =>
    obtain ⟨k', v'⟩ := p
    by_cases hk : k' = k
    · rw [getAssoc, if_pos hk] at hv
      obtain hveq := Option.some.injEq .. ▸ hv
      rw [modifyAssoc, if_pos hk, hveq, hf, hk]
    · rw [getAssoc, if_neg hk] at hv
      rw [modifyAssoc, if_neg hk, ih hv]

theorem mem_insertTag_self (tags : List String) (t : String) :
    t ∈ insertTag tags t := by
  by_cases h : t ∈ tags <;> simp [insertTag, h]

theorem insertTag_of_mem {tags : List String} {t : String} (h : t ∈ tags) :
    insertTag tags t = tags := by
  simp [insertTag, h]

theorem mem_insertTag_of_mem {tags : List String} {t t' : String}
    (h : t' ∈ tags) : t' ∈ insertTag tags t := by
  by_cases ht : t ∈ tags <;> simp [insertTag, ht, h]

theorem hasTag_addBackendTag_self (pt : PodTagBundle) (b : Backend)
    (tag : String) : HasTag (addBackendTag pt b tag) b tag := by
  have h1 := getAssoc_modifyAssoc_self []
    (fun podMap =>
      modifyAssoc [] (fun tg => insertTag tg tag) podMap (b.ns, b.pod))
    pt b.node
  have h2 := getAssoc_modifyAssoc_self [] (fun tg => insertTag tg tag)
    ((getAssoc pt b.node).getD []) (b.ns, b.pod)
  exact ⟨_, _, h1, h2, mem_insertTag_self _ _⟩

theorem hasTag_addBackendTag_of_hasTag {pt : PodTagBundle} {b' : Backend}
    {t' : String} (b : Backend) (t : String) (h : HasTag pt b' t') :
    HasTag (addBackendTag pt b t) b' t' := by
  obtain ⟨podMap, tags, hpm, htg, hmem⟩ := h
  by_cases hn : b'.node = b.node
  · have hpm' : getAssoc pt b.node = some podMap := hn ▸ hpm
    have houter : getAssoc (addBackendTag pt b t) b'.node =
        some (modifyAssoc [] (fun tg => insertTag tg t) podMap
          (b.ns, b.pod)) := by
      rw [addBackendTag, hn, getAssoc_modifyAssoc_self, hpm', Option.getD_some]
    by_cases hk : (b'.ns, b'.pod) = (b.ns, b.pod)
    · have htg' : getAssoc podMap (b.ns, b.pod) = some tags := hk ▸ htg
      refine ⟨_, insertTag tags t, houter, ?_, mem_insertTag_of_mem hmem⟩
      rw [hk, getAssoc_modifyAssoc_self, htg', Option.getD_some]
    · refine ⟨_, tags, houter, ?_, hmem⟩
      rw [getAssoc_modifyAssoc_ne _ _ _ hk, htg]
  · exact ⟨podMap, tags,
      by rw [addBackendTag, getAssoc_modifyAssoc_ne _ _ _ hn, hpm], htg, hmem⟩

theorem addBackendTag_of_hasTag {pt : PodTagBundle} {b : Backend}
    {tag : String} (h : HasTag pt b tag) : addBackendTag pt b tag = pt := by
  obtain ⟨podMap, tags, hpm, htg, hmem⟩ := h
  rw [addBackendTag]
  refine modifyAssoc_eq_self hpm ?_
  exact modifyAssoc_eq_self htg (insertTag_of_mem hmem)

theorem hasTag_foldl_of_hasTag {bs : List Backend} {pt : PodTagBundle}
    {b' : Backend} {t t' : String} (h : HasTag pt b' t') :
    HasTag (bs.foldl (fun acc b => addBackendTag acc b t) pt) b' t' := by
  induction bs generalizing pt with
  | nil => exact h
  | cons b bs ih => exact ih (hasTag_addBackendTag_of_hasTag b t h)

theorem hasTag_foldl_self {bs : List Backend} {pt : PodTagBundle}
    {t : String} {b : Backend} (hb : b ∈ bs) :
    HasTag (bs.foldl (fun acc b => addBackendTag acc b t) pt) b t := by
  induction bs generalizing pt with
  | nil => cases hb
  | cons c cs ih =>
    rcases List.mem_cons.mp hb with hb | hb
    · subst hb
      rw [List.foldl_cons]
      exact hasTag_foldl_of_hasTag (hasTag_addBackendTag_self _ _ _)
    · exact ih hb

theorem foldl_addBackendTag_of_all {bs : List Backend} {pt : PodTagBundle}
    {t : String} (h : ∀ b ∈ bs, HasTag pt b t) :
    bs.foldl (fun acc b => addBackendTag acc b t) pt = pt := by
  induction bs with
  | nil => rfl
  | cons b bs ih =>
    rw [List.foldl_cons, addBackendTag_of_hasTag (h b (List.mem_cons_self b bs))]
    exact ih fun c hc => h c (List.mem_cons_of_mem b hc)

/-- C8: applying the same Add event twice — a Node add or an Endpoint add —
leaves the aggregator bundles exactly as applying it once: a Node add replaces
the node's entry with the same label set again, and an Endpoint add re-inserts
tags that are already present in the pods' tag sets. -/
theorem applyEvent_idempotent (s : Bundles) (e : AggEvent) :
    applyEvent (applyEvent s e) e = applyEvent s e := by
  cases e with
  | nodeAdd name labels => simp [applyEvent, setAssoc_idem]
  | endpointAdd svc backends =>
    simp only [applyEvent]
    congr 1
    exact foldl_addBackendTag_of_all fun b hb => hasTag_foldl_self hb

end DatadogAgent
